import Mathlib

/-!
Shallow embedding of `cmap::Bimap<TypeKey, TypeValue>` from `src/lib/bimap.h`.

The C++ class keeps two `std::map`s:
  `_ContainerKey  m_map`         : `std::map<TypeKey, TypeValue>`
  `_ContainerValue m_mapInversed`: `std::map<TypeValue, TypeKey>`

We model a `std::map` as an association list sorted strictly by key.
  * `m[k] = v` (operator[] assignment) is `mapAssign`.
  * `m.find(k)` / `m.at(k)` is `mapFind?` — `none` models the thrown
    `std::out_of_range` (the NotFound condition of the spec).
  * `m.erase(k)` is `mapEraseKey`.
All operations of the bimap are translated statement by statement from the
source; lookups are `const` in C++, hence pure functions here.
-/

namespace BimapModel

/-- Model of `std::map` assignment `m[k] = v`: keep the list sorted by key,
overwrite the mapped value when an entry with an equivalent key exists. -/
def mapAssign {K V : Type} [LinearOrder K] : List (K × V) → K → V → List (K × V)
  | [], k, v => [(k, v)]
  | (k0, v0) :: rest, k, v =>
    if k < k0 then (k, v) :: (k0, v0) :: rest
    else if k0 < k then (k0, v0) :: mapAssign rest k v
    else (k, v) :: rest

/-- Model of `std::map` lookup `m.find(k)` / `m.at(k)`: the mapped value of
the first entry with key `k`, or `none` (C++: `end()` / `std::out_of_range`). -/
def mapFind? {K V : Type} [LinearOrder K] : List (K × V) → K → Option V
  | [], _ => none
  | (k0, v0) :: rest, k => if k0 = k then some v0 else mapFind? rest k

/-- Model of `std::map` erasure `m.erase(k)`: drop the first entry with key
`k`, keep the rest. -/
def mapEraseKey {K V : Type} [LinearOrder K] : List (K × V) → K → List (K × V)
  | [], _ => []
  | (k0, v0) :: rest, k => if k0 = k then rest else (k0, v0) :: mapEraseKey rest k

/-- The entries of a `std::map` are strictly sorted by key. -/
abbrev mapSorted {K V : Type} [LinearOrder K] (m : List (K × V)) : Prop :=
  m.Pairwise (fun p q => p.1 < q.1)

/-- State of `cmap::Bimap<K, V>`: the two member maps of the C++ class. -/
structure Bimap (K V : Type) where
  m_map : List (K × V)
  m_mapInversed : List (V × K)
deriving DecidableEq

namespace Bimap

variable {K V : Type} [LinearOrder K] [LinearOrder V]

/-- `Bimap::Bimap()` — the default constructor calls `clear()` on the two
default-constructed (empty) maps, yielding the empty state. -/
def emptyBimap (K V : Type) : Bimap K V := ⟨[], []⟩

/-- `Bimap::empty()` — `return m_map.empty();`. -/
def isEmpty (b : Bimap K V) : Bool := b.m_map.isEmpty

/-- `Bimap::size()` — `return m_map.size();`. -/
def size (b : Bimap K V) : Nat := b.m_map.length

/-- `Bimap::clear()` — `m_map.clear(); m_mapInversed.clear();`. -/
def clear (_b : Bimap K V) : Bimap K V := ⟨[], []⟩

/-- `Bimap::insert(key, value)` — `m_map[key] = value; m_mapInversed[value] = key;`.
Note the source performs exactly these two assignments and nothing else. -/
def insert (b : Bimap K V) (key : K) (value : V) : Bimap K V :=
  ⟨mapAssign b.m_map key value, mapAssign b.m_mapInversed value key⟩

/-- `Bimap::erase(key)` — look the key up in `m_map`; if absent, return;
otherwise erase `it->second` from `m_mapInversed` and `it` from `m_map`. -/
def erase (b : Bimap K V) (key : K) : Bimap K V :=
  match mapFind? b.m_map key with
  | none => b
  | some v => ⟨mapEraseKey b.m_map key, mapEraseKey b.m_mapInversed v⟩

/-- `Bimap::getValue(key)` — `return m_map.at(key);`; `none` models the
thrown `std::out_of_range` (the NotFound condition). -/
def getValue (b : Bimap K V) (key : K) : Option V := mapFind? b.m_map key

/-- `Bimap::getKey(value)` — `return m_mapInversed.at(value);`; `none` models
the thrown `std::out_of_range` (the NotFound condition). -/
def getKey (b : Bimap K V) (value : V) : Option K := mapFind? b.m_mapInversed value

/-- The sequence of pairs produced by the forward traversal from
`Bimap::begin()` to `Bimap::end()` (in-order walk of `m_map`). -/
def toListAsc (b : Bimap K V) : List (K × V) := b.m_map

/-- The sequence of pairs produced by the traversal from `Bimap::rbegin()` to
`Bimap::rend()` (reverse in-order walk of `m_map`). -/
def toListDesc (b : Bimap K V) : List (K × V) := b.m_map.reverse

/-- The loop body of `Bimap::Bimap(const std::initializer_list &args)`:
`for(auto it = args.begin(); it != args.end(); ++it) insert(*it);`. -/
def ctorLoop (b : Bimap K V) : List (K × V) → Bimap K V
  | [] => b
  | node :: rest => ctorLoop (b.insert node.1 node.2) rest

/-- `Bimap::Bimap(const std::initializer_list &args)` — members start
default-constructed (both maps empty), then the loop inserts every node. -/
def ofList (args : List (K × V)) : Bimap K V :=
  ctorLoop (emptyBimap K V) args

/-- Modelled from the spec (§4.2 construct): "bimap populated by applying
insert(k, v) for each pair in the given sequence, in order". -/
def specConstruct (args : List (K × V)) : Bimap K V :=
  args.foldl (fun b node => b.insert node.1 node.2) (emptyBimap K V)

/-- Both member maps are strictly sorted by their own key, as `std::map`
guarantees for every state the program can build. -/
abbrev WF (b : Bimap K V) : Prop :=
  mapSorted b.m_map ∧ mapSorted b.m_mapInversed

/-- The bimap states the program can actually reach through the public
interface of `cmap::Bimap`. -/
inductive Reachable : Bimap K V → Prop where
  | emptyCtor : Reachable (emptyBimap K V)
  | listCtor (args : List (K × V)) : Reachable (ofList args)
  | insertStep (b : Bimap K V) (k : K) (v : V) :
      Reachable b → Reachable (b.insert k v)
  | eraseStep (b : Bimap K V) (k : K) :
      Reachable b → Reachable (b.erase k)
  | clearStep (b : Bimap K V) :
      Reachable b → Reachable (b.clear)

end Bimap

section MapLemmas

variable {K V : Type} [LinearOrder K]

theorem mapFind?_eq_none_of_forall_lt {m : List (K × V)} {k : K}
    (h : ∀ p ∈ m, k < p.1) : mapFind? m k = none := by
  induction m with
  | nil => rfl
  | cons p rest ih =>
    obtain ⟨k0, v0⟩ := p
    have hk : k < k0 := h (k0, v0) (List.mem_cons_self _ _)
    simp only [mapFind?, if_neg (ne_of_gt hk)]
    exact ih fun q hq => h q (List.mem_cons_of_mem _ hq)

theorem mapFind?_mapAssign_self (m : List (K × V)) (k : K) (v : V) :
    mapFind? (mapAssign m k v) k = some v := by
  induction m with
  | nil => simp [mapAssign, mapFind?]
  | cons p rest ih =>
    obtain ⟨k0, v0⟩ := p
    by_cases h1 : k < k0
    · simp [mapAssign, h1, mapFind?]
    · by_cases h2 : k0 < k
      · simp [mapAssign, h1, h2, mapFind?, ne_of_lt h2, ih]
      · simp [mapAssign, h1, h2, mapFind?]

theorem mapFind?_mapAssign_ne {m : List (K × V)} {k k' : K} (v : V)
    (h : k' ≠ k) : mapFind? (mapAssign m k v) k' = mapFind? m k' := by
  have hne : ¬(k = k') := fun he => h he.symm
  induction m with
  | nil => simp [mapAssign, mapFind?, hne]
  | cons p rest ih =>
    obtain ⟨k0, v0⟩ := p
    by_cases h1 : k < k0
    · simp only [mapAssign, if_pos h1, mapFind?, if_neg hne]
    · by_cases h2 : k0 < k
      · simp only [mapAssign, if_neg h1, if_pos h2, mapFind?]
        by_cases h3 : k0 = k'
        · simp only [if_pos h3]
        · simp only [if_neg h3, ih]
      · have hk : k0 = k := le_antisymm (not_lt.mp h1) (not_lt.mp h2)
        subst hk
        simp only [mapAssign, if_neg h1, if_neg h2, mapFind?, if_neg hne]

theorem length_mapAssign_of_none {m : List (K × V)} {k : K} (v : V)
    (h : mapFind? m k = none) : (mapAssign m k v).length = m.length + 1 := by
  induction m with
  | nil => simp [mapAssign]
  | cons p rest ih =>
    obtain ⟨k0, v0⟩ := p
    simp only [mapFind?] at h
    by_cases h0 : k0 = k
    · simp [h0] at h
    · simp only [if_neg h0] at h
      by_cases h1 : k < k0
      · simp [mapAssign, h1]
      · by_cases h2 : k0 < k
        · simp [mapAssign, h1, h2, ih h]
        · exact absurd (le_antisymm (not_lt.mp h1) (not_lt.mp h2)) h0

theorem length_mapAssign_of_some {m : List (K × V)} {k : K} (v : V)
    (hs : mapSorted m) (h : (mapFind? m k).isSome) :
    (mapAssign m k v).length = m.length := by
  induction m with
  | nil => simp [mapFind?] at h
  | cons p rest ih =>
    obtain ⟨k0, v0⟩ := p
    rw [mapSorted, List.pairwise_cons] at hs
    by_cases h1 : k < k0
    · exfalso
      have hnone : mapFind? ((k0, v0) :: rest) k = none := by
        refine mapFind?_eq_none_of_forall_lt ?_
        intro q hq
        rcases List.mem_cons.mp hq with hq | hq
        · rw [hq]; exact h1
        · exact lt_trans h1 (hs.1 q hq)
      rw [hnone] at h
      simp at h
    · by_cases h2 : k0 < k
      · have hne : ¬(k0 = k) := ne_of_lt h2
        simp only [mapFind?, if_neg hne] at h
        simp [mapAssign, h1, h2, ih hs.2 h]
      · simp [mapAssign, h1, h2]

theorem mem_mapAssign {m : List (K × V)} {k : K} {v : V} {p : K × V}
    (h : p ∈ mapAssign m k v) : p = (k, v) ∨ p ∈ m := by
  induction m with
  | nil => simp [mapAssign] at h; simp [h]
  | cons q rest ih =>
    obtain ⟨k0, v0⟩ := q
    by_cases h1 : k < k0
    · simp only [mapAssign, if_pos h1] at h
      rcases List.mem_cons.mp h with h | h
      · exact Or.inl h
      · exact Or.inr h
    · by_cases h2 : k0 < k
      · simp only [mapAssign, if_neg h1, if_pos h2] at h
        rcases List.mem_cons.mp h with h | h
        · exact Or.inr (List.mem_cons.mpr (Or.inl h))
        · rcases ih h with h | h
          · exact Or.inl h
          · exact Or.inr (List.mem_cons_of_mem _ h)
      · simp only [mapAssign, if_neg h1, if_neg h2] at h
        rcases List.mem_cons.mp h with h | h
        · exact Or.inl h
        · exact Or.inr (List.mem_cons_of_mem _ h)

theorem mapSorted_mapAssign {m : List (K × V)} (k : K) (v : V)
    (hs : mapSorted m) : mapSorted (mapAssign m k v) := by
  induction m with
  | nil => simp [mapAssign, mapSorted]
  | cons p rest ih =>
    obtain ⟨k0, v0⟩ := p
    rw [mapSorted, List.pairwise_cons] at hs
    by_cases h1 : k < k0
    · rw [mapSorted]
      simp only [mapAssign, if_pos h1]
      rw [List.pairwise_cons]
      refine ⟨?_, List.pairwise_cons.mpr hs⟩
      intro q hq
      rcases List.mem_cons.mp hq with hq | hq
      · rw [hq]; exact h1
      · exact lt_trans h1 (hs.1 q hq)
    · by_cases h2 : k0 < k
      · rw [mapSorted]
        simp only [mapAssign, if_neg h1, if_pos h2]
        rw [List.pairwise_cons]
        refine ⟨?_, ih hs.2⟩
        intro q hq
        rcases mem_mapAssign hq with hq | hq
        · rw [hq]; exact h2
        · exact hs.1 q hq
      · have hk : k0 = k := le_antisymm (not_lt.mp h1) (not_lt.mp h2)
        rw [mapSorted]
        simp only [mapAssign, if_neg h1, if_neg h2]
        rw [List.pairwise_cons]
        exact ⟨fun q hq => hk ▸ hs.1 q hq, hs.2⟩

theorem mapEraseKey_of_none {m : List (K × V)} {k : K}
    (h : mapFind? m k = none) : mapEraseKey m k = m := by
  induction m with
  | nil => rfl
  | cons p rest ih =>
    obtain ⟨k0, v0⟩ := p
    simp only [mapFind?] at h
    by_cases h0 : k0 = k
    · simp [h0] at h
    · simp only [if_neg h0] at h
      simp [mapEraseKey, h0, ih h]

theorem length_mapEraseKey_of_some {m : List (K × V)} {k : K}
    (h : (mapFind? m k).isSome) : (mapEraseKey m k).length + 1 = m.length := by
  induction m with
  | nil => simp [mapFind?] at h
  | cons p rest ih =>
    obtain ⟨k0, v0⟩ := p
    by_cases h0 : k0 = k
    · simp [mapEraseKey, h0]
    · simp only [mapFind?, if_neg h0] at h
      simp [mapEraseKey, h0, ih h]

theorem mapFind?_mapEraseKey_ne {m : List (K × V)} {k k' : K} (h : k' ≠ k) :
    mapFind? (mapEraseKey m k) k' = mapFind? m k' := by
  induction m with
  | nil => rfl
  | cons p rest ih =>
    obtain ⟨k0, v0⟩ := p
    by_cases h0 : k0 = k
    · have hne : ¬(k0 = k') := fun he => h (he.symm.trans h0)
      simp only [mapEraseKey, if_pos h0, mapFind?, if_neg hne]
    · by_cases h1 : k0 = k'
      · simp only [mapEraseKey, if_neg h0, mapFind?, if_pos h1]
      · simp only [mapEraseKey, if_neg h0, mapFind?, if_neg h1, ih]

theorem mapFind?_mapEraseKey_self {m : List (K × V)} {k : K}
    (hs : mapSorted m) : mapFind? (mapEraseKey m k) k = none := by
  induction m with
  | nil => rfl
  | cons p rest ih =>
    obtain ⟨k0, v0⟩ := p
    rw [mapSorted, List.pairwise_cons] at hs
    by_cases h0 : k0 = k
    · simp only [mapEraseKey, if_pos h0]
      exact mapFind?_eq_none_of_forall_lt fun q hq => h0 ▸ hs.1 q hq
    · simp [mapEraseKey, h0, mapFind?, ih hs.2]

theorem sublist_mapEraseKey (m : List (K × V)) (k : K) :
    (mapEraseKey m k).Sublist m := by
  induction m with
  | nil => exact List.Sublist.refl _
  | cons p rest ih =>
    obtain ⟨k0, v0⟩ := p
    by_cases h0 : k0 = k
    · simp only [mapEraseKey, if_pos h0]
      exact List.sublist_cons_self _ _
    · simp only [mapEraseKey, if_neg h0]
      exact List.Sublist.cons₂ _ ih

theorem mapSorted_mapEraseKey {m : List (K × V)} (k : K)
    (hs : mapSorted m) : mapSorted (mapEraseKey m k) :=
  List.Pairwise.sublist (sublist_mapEraseKey m k) hs

theorem mapFind?_eq_none_iff {m : List (K × V)} {k : K} :
    mapFind? m k = none ↔ ∀ v, (k, v) ∉ m := by
  induction m with
  | nil => simp [mapFind?]
  | cons p rest ih =>
    obtain ⟨k0, v0⟩ := p
    by_cases h0 : k0 = k
    · subst h0
      simp only [mapFind?, if_pos rfl]
      constructor
      · intro h; simp at h
      · intro h; exact absurd (List.mem_cons_self _ _) (h v0)
    · simp only [mapFind?, if_neg h0]
      rw [ih]
      constructor
      · intro h v hv
        rcases List.mem_cons.mp hv with hv | hv
        · exact h0 (congrArg Prod.fst hv).symm
        · exact h v hv
      · intro h v hv
        exact h v (List.mem_cons_of_mem _ hv)

theorem mem_of_mapFind?_eq_some {m : List (K × V)} {k : K} {v : V}
    (h : mapFind? m k = some v) : (k, v) ∈ m := by
  induction m with
  | nil => simp [mapFind?] at h
  | cons p rest ih =>
    obtain ⟨k0, v0⟩ := p
    by_cases h0 : k0 = k
    · simp only [mapFind?, if_pos h0, Option.some.injEq] at h
      exact h0 ▸ h ▸ List.mem_cons_self _ _
    · simp only [mapFind?, if_neg h0] at h
      exact List.mem_cons_of_mem _ (ih h)

theorem mapFind?_eq_some_of_mem {m : List (K × V)} {k : K} {v : V}
    (hs : mapSorted m) (h : (k, v) ∈ m) : mapFind? m k = some v := by
  induction m with
  | nil => simp at h
  | cons p rest ih =>
    obtain ⟨k0, v0⟩ := p
    rw [mapSorted, List.pairwise_cons] at hs
    rcases List.mem_cons.mp h with h | h
    · obtain ⟨hk, hv⟩ := Prod.mk.injEq .. ▸ h
      simp [mapFind?, hk.symm, hv]
    · have hne : k0 ≠ k := by
        intro he
        have := hs.1 _ h
        rw [he] at this
        exact lt_irrefl k this
      simp [mapFind?, hne, ih hs.2 h]

end MapLemmas

namespace Bimap

variable {K V : Type} [LinearOrder K] [LinearOrder V]

theorem wf_emptyBimap : (emptyBimap K V).WF :=
  ⟨List.Pairwise.nil, List.Pairwise.nil⟩

theorem WF.insertWF {b : Bimap K V} (h : b.WF) (k : K) (v : V) :
    (b.insert k v).WF :=
  ⟨mapSorted_mapAssign k v h.1, mapSorted_mapAssign v k h.2⟩

theorem erase_absent {b : Bimap K V} {k : K} (h : b.getValue k = none) :
    b.erase k = b := by
  rw [getValue] at h
  unfold erase
  rw [h]

theorem erase_present {b : Bimap K V} {k : K} {v : V}
    (h : b.getValue k = some v) :
    b.erase k = ⟨mapEraseKey b.m_map k, mapEraseKey b.m_mapInversed v⟩ := by
  rw [getValue] at h
  unfold erase
  rw [h]

theorem WF.eraseWF {b : Bimap K V} (h : b.WF) (k : K) : (b.erase k).WF := by
  cases hf : b.getValue k with
  | none => rw [erase_absent hf]; exact h
  | some v =>
    rw [erase_present hf]
    exact ⟨mapSorted_mapEraseKey k h.1, mapSorted_mapEraseKey v h.2⟩

theorem WF.clearWF (b : Bimap K V) : b.clear.WF :=
  ⟨List.Pairwise.nil, List.Pairwise.nil⟩

theorem ctorLoop_eq_foldl (b : Bimap K V) (l : List (K × V)) :
    ctorLoop b l = l.foldl (fun b node => b.insert node.1 node.2) b := by
  induction l generalizing b with
  | nil => rfl
  | cons p rest ih => simp only [ctorLoop, List.foldl, ih]

theorem wf_ctorLoop {b : Bimap K V} (h : b.WF) (l : List (K × V)) :
    (ctorLoop b l).WF := by
  induction l generalizing b with
  | nil => exact h
  | cons p rest ih => exact ih (h.insertWF p.1 p.2)

theorem wf_ofList (l : List (K × V)) : (ofList l).WF :=
  wf_ctorLoop wf_emptyBimap l

theorem Reachable.wf {b : Bimap K V} (h : Reachable b) : b.WF := by
  induction h with
  | emptyCtor => exact wf_emptyBimap
  | listCtor args => exact wf_ofList args
  | insertStep b k v _ ih => exact ih.insertWF k v
  | eraseStep b k _ ih => exact ih.eraseWF k
  | clearStep b _ _ => exact WF.clearWF b

end Bimap

section Claims

open Bimap

variable {K V : Type} [LinearOrder K] [LinearOrder V]

/-- C4: `getValue(key)` returns the value currently associated with `key`
(a mapped value of an entry of the forward map, uniquely determined when the
map is well formed) and fails with NotFound (`std::out_of_range`) exactly
when `key` is absent from the forward map; `getKey(value)` likewise against
the reverse map; both are `const`, hence pure functions of the state here. -/
theorem C4_lookup_contract (b : Bimap K V) (k : K) (v : V) :
    (b.getValue k = none ↔ ∀ w, (k, w) ∉ b.m_map) ∧
    (∀ w, b.getValue k = some w → (k, w) ∈ b.m_map) ∧
    (b.WF → ∀ w, (k, w) ∈ b.m_map → b.getValue k = some w) ∧
    (b.getKey v = none ↔ ∀ k', (v, k') ∉ b.m_mapInversed) ∧
    (∀ k', b.getKey v = some k' → (v, k') ∈ b.m_mapInversed) ∧
    (b.WF → ∀ k', (v, k') ∈ b.m_mapInversed → b.getKey v = some k') :=
  ⟨mapFind?_eq_none_iff, fun _ h => mem_of_mapFind?_eq_some h,
   fun hWF _ h => mapFind?_eq_some_of_mem hWF.1 h,
   mapFind?_eq_none_iff, fun _ h => mem_of_mapFind?_eq_some h,
   fun hWF _ h => mapFind?_eq_some_of_mem hWF.2 h⟩

/-- Witness for C4 at a concrete input. -/
theorem C4_lookup_contract_witness :
    ((ofList [(1, 10), (2, 20)] : Bimap ℕ ℕ).getValue 3 = none ↔
      ∀ w, (3, w) ∉ (ofList [(1, 10), (2, 20)] : Bimap ℕ ℕ).m_map) ∧
    (∀ w, (ofList [(1, 10), (2, 20)] : Bimap ℕ ℕ).getValue 3 = some w →
      (3, w) ∈ (ofList [(1, 10), (2, 20)] : Bimap ℕ ℕ).m_map) ∧
    ((ofList [(1, 10), (2, 20)] : Bimap ℕ ℕ).WF →
      ∀ w, (3, w) ∈ (ofList [(1, 10), (2, 20)] : Bimap ℕ ℕ).m_map →
        (ofList [(1, 10), (2, 20)] : Bimap ℕ ℕ).getValue 3 = some w) ∧
    ((ofList [(1, 10), (2, 20)] : Bimap ℕ ℕ).getKey 20 = none ↔
      ∀ k', (20, k') ∉ (ofList [(1, 10), (2, 20)] : Bimap ℕ ℕ).m_mapInversed) ∧
    (∀ k', (ofList [(1, 10), (2, 20)] : Bimap ℕ ℕ).getKey 20 = some k' →
      (20, k') ∈ (ofList [(1, 10), (2, 20)] : Bimap ℕ ℕ).m_mapInversed) ∧
    ((ofList [(1, 10), (2, 20)] : Bimap ℕ ℕ).WF →
      ∀ k', (20, k') ∈ (ofList [(1, 10), (2, 20)] : Bimap ℕ ℕ).m_mapInversed →
        (ofList [(1, 10), (2, 20)] : Bimap ℕ ℕ).getKey 20 = some k') :=
  C4_lookup_contract (ofList [(1, 10), (2, 20)]) 3 20

/-- C5: on a well-formed state, if `k` is present with value `v`, `erase k`
makes `k` absent from the forward map and `v` absent from the reverse map;
if `k` is absent, `erase k` is a no-op returning the state unchanged (no
failure is possible: `erase` is total here); hence erasing twice equals
erasing once. -/
theorem C5_erase_contract (b : Bimap K V) (k : K) (hWF : b.WF) :
    (∀ v, b.getValue k = some v →
      (b.erase k).getValue k = none ∧ (b.erase k).getKey v = none) ∧
    (b.getValue k = none → b.erase k = b) ∧
    (b.erase k).erase k = b.erase k := by
  have hpres : ∀ v, b.getValue k = some v →
      (b.erase k).getValue k = none ∧ (b.erase k).getKey v = none := by
    intro v hv
    rw [erase_present hv]
    exact ⟨mapFind?_mapEraseKey_self hWF.1, mapFind?_mapEraseKey_self hWF.2⟩
  refine ⟨hpres, fun h => erase_absent h, ?_⟩
  cases hf : b.getValue k with
  | none => rw [erase_absent hf, erase_absent hf]
  | some v => exact erase_absent (hpres v hf).1

/-- Witness for C5 at a concrete input. -/
theorem C5_erase_contract_witness :
    (ofList [(1, 10), (2, 20)] : Bimap ℕ ℕ).WF ∧
    ((∀ v, (ofList [(1, 10), (2, 20)] : Bimap ℕ ℕ).getValue 1 = some v →
      ((ofList [(1, 10), (2, 20)] : Bimap ℕ ℕ).erase 1).getValue 1 = none ∧
      ((ofList [(1, 10), (2, 20)] : Bimap ℕ ℕ).erase 1).getKey v = none) ∧
    ((ofList [(1, 10), (2, 20)] : Bimap ℕ ℕ).getValue 1 = none →
      (ofList [(1, 10), (2, 20)] : Bimap ℕ ℕ).erase 1 = ofList [(1, 10), (2, 20)]) ∧
    ((ofList [(1, 10), (2, 20)] : Bimap ℕ ℕ).erase 1).erase 1 =
      (ofList [(1, 10), (2, 20)] : Bimap ℕ ℕ).erase 1) :=
  ⟨by decide, C5_erase_contract (ofList [(1, 10), (2, 20)]) 1 (by decide)⟩

/-- C6: `insert(key, value)` grows `size()` by exactly one when neither the
key nor the value collides with an existing pair, and leaves `size()`
unchanged when the key already existed (the forward map overwrites in
place; `size()` reads only the forward map). -/
theorem C6_insert_size (b : Bimap K V) (k : K) (v : V) (hWF : b.WF) :
    (b.getValue k = none ∧ b.getKey v = none →
      (b.insert k v).size = b.size + 1) ∧
    ((b.getValue k).isSome = true → (b.insert k v).size = b.size) := by
  constructor
  · rintro ⟨h1, -⟩
    exact length_mapAssign_of_none v h1
  · intro h
    exact length_mapAssign_of_some v hWF.1 h

/-- Witness for C6 at a concrete input. -/
theorem C6_insert_size_witness :
    (ofList [(1, 10)] : Bimap ℕ ℕ).WF ∧
    (((ofList [(1, 10)] : Bimap ℕ ℕ).getValue 2 = none ∧
        (ofList [(1, 10)] : Bimap ℕ ℕ).getKey 20 = none →
      ((ofList [(1, 10)] : Bimap ℕ ℕ).insert 2 20).size =
        (ofList [(1, 10)] : Bimap ℕ ℕ).size + 1) ∧
    (((ofList [(1, 10)] : Bimap ℕ ℕ).getValue 2).isSome = true →
      ((ofList [(1, 10)] : Bimap ℕ ℕ).insert 2 20).size =
        (ofList [(1, 10)] : Bimap ℕ ℕ).size)) :=
  ⟨by decide, C6_insert_size (ofList [(1, 10)]) 2 20 (by decide)⟩

/-- C7: after `clear()` the container is empty: `empty()` is true, `size()`
is 0, and every `getValue`/`getKey` lookup (in particular for any entry
present before the clear) fails with NotFound. -/
theorem C7_clear_resets (b : Bimap K V) (k : K) (v : V) :
    (b.clear).isEmpty = true ∧ (b.clear).size = 0 ∧
    (b.clear).getValue k = none ∧ (b.clear).getKey v = none :=
  ⟨rfl, rfl, rfl, rfl⟩

/-- C10: erasing a present key `k` (with associated value `v`) leaves every
other entry untouched: forward lookups of any other key and reverse lookups
of any other value are unchanged. -/
theorem C10_erase_frame (b : Bimap K V) (k : K) (v : V)
    (h : b.getValue k = some v) :
    (∀ k', k' ≠ k → (b.erase k).getValue k' = b.getValue k') ∧
    (∀ v', v' ≠ v → (b.erase k).getKey v' = b.getKey v') := by
  rw [erase_present h]
  exact ⟨fun k' hk => mapFind?_mapEraseKey_ne hk,
         fun v' hv => mapFind?_mapEraseKey_ne hv⟩

/-- Witness for C10 at a concrete input. -/
theorem C10_erase_frame_witness :
    (ofList [(1, 10), (2, 20)] : Bimap ℕ ℕ).getValue 1 = some 10 ∧
    ((∀ k', k' ≠ 1 →
        ((ofList [(1, 10), (2, 20)] : Bimap ℕ ℕ).erase 1).getValue k' =
          (ofList [(1, 10), (2, 20)] : Bimap ℕ ℕ).getValue k') ∧
    (∀ v', v' ≠ 10 →
        ((ofList [(1, 10), (2, 20)] : Bimap ℕ ℕ).erase 1).getKey v' =
          (ofList [(1, 10), (2, 20)] : Bimap ℕ ℕ).getKey v')) :=
  ⟨by decide, C10_erase_frame (ofList [(1, 10), (2, 20)]) 1 10 (by decide)⟩

/-- C1: evaluation of the code at failing inputs. The claimed invariant
(forward/reverse lookups agree and forward count = size = reverse count
after every insert/erase sequence) is violated by the source's `insert`,
which runs `m_map[key] = value; m_mapInversed[value] = key;` without
evicting stale entries: after `insert(1,10); insert(2,10)` the forward
lookup of 1 yields 10 but the reverse lookup of 10 yields 2, and after
`insert(1,10); insert(1,20)` the forward map holds 1 entry (`size() = 1`)
while the reverse map holds 2. -/
theorem C1_bidirectional_consistency_violated :
    ((((emptyBimap ℕ ℕ).insert 1 10).insert 2 10).getValue 1 = some 10 ∧
     (((emptyBimap ℕ ℕ).insert 1 10).insert 2 10).getKey 10 = some 2) ∧
    ((((emptyBimap ℕ ℕ).insert 1 10).insert 1 20).size = 1 ∧
     (((emptyBimap ℕ ℕ).insert 1 10).insert 1 20).m_map.length = 1 ∧
     (((emptyBimap ℕ ℕ).insert 1 10).insert 1 20).m_mapInversed.length = 2) := by
  decide

/-- C2: evaluation of the code at the failing input. After
`insert(1,10); insert(1,20)` the size parts of the claim hold (`size()`
stays 1 and `getValue(1) = 20`), but `getKey(10)` returns 1 instead of
failing NotFound, even though no key maps to 10 any more: the source's
`insert` never erases the overwritten value's reverse entry. -/
theorem C2_key_overwrite_violated :
    (((emptyBimap ℕ ℕ).insert 1 10).size = 1 ∧
     (((emptyBimap ℕ ℕ).insert 1 10).insert 1 20).size = 1 ∧
     (((emptyBimap ℕ ℕ).insert 1 10).insert 1 20).getValue 1 = some 20) ∧
    (((emptyBimap ℕ ℕ).insert 1 10).insert 1 20).getKey 10 = some 1 ∧
    (∀ p ∈ (((emptyBimap ℕ ℕ).insert 1 10).insert 1 20).m_map, p.2 ≠ 10) := by
  decide

/-- C3 counterexample: the claim fails as stated. From empty,
`insert(1,10); insert(2,10)` gives `getKey(10) = 2` as claimed, but
`getValue(1)` returns 10 instead of failing NotFound: the source's `insert`
never erases the overwritten key's stale forward entry. -/
theorem C3_value_overwrite_counterexample :
    (((emptyBimap ℕ ℕ).insert 1 10).insert 2 10).getValue 1 = some 10 ∧
    ¬((((emptyBimap ℕ ℕ).insert 1 10).insert 2 10).getKey 10 = some 2 ∧
      (((emptyBimap ℕ ℕ).insert 1 10).insert 2 10).getValue 1 = none) := by
  decide

/-- C3 amended: `insert(k1, v)` then `insert(k2, v)` with `k1 ≠ k2` makes
`getKey(v) = k2`, while `getValue(k1)` still returns `v` (the stale forward
entry is kept; no NotFound is raised). -/
theorem C3_value_overwrite_amended (b : Bimap K V) (k1 k2 : K) (v : V)
    (h : k1 ≠ k2) :
    ((b.insert k1 v).insert k2 v).getKey v = some k2 ∧
    ((b.insert k1 v).insert k2 v).getValue k1 = some v := by
  constructor
  · exact mapFind?_mapAssign_self _ v k2
  · show mapFind? (mapAssign (mapAssign b.m_map k1 v) k2 v) k1 = some v
    rw [mapFind?_mapAssign_ne v h]
    exact mapFind?_mapAssign_self _ k1 v

/-- Witness for the amended C3 at a concrete input. -/
theorem C3_value_overwrite_amended_witness :
    (1 : ℕ) ≠ 2 ∧
    ((((emptyBimap ℕ ℕ).insert 1 10).insert 2 10).getKey 10 = some 2 ∧
     (((emptyBimap ℕ ℕ).insert 1 10).insert 2 10).getValue 1 = some 10) :=
  ⟨by decide, C3_value_overwrite_amended (emptyBimap ℕ ℕ) 1 2 10 (by decide)⟩

/-- C8: the initializer-list constructor is exactly the fold of `insert`
over the sequence starting from the empty bimap (`specConstruct`, the
spec's wording), so later pairs with a repeated key overwrite earlier ones
in the forward map; the concrete 3-entry construction behaves as claimed. -/
theorem C8_construct_refines :
    (∀ (K V : Type) [LinearOrder K] [LinearOrder V]
        (args : List (K × V)),
      ofList args = specConstruct (K := K) (V := V) args) ∧
    ((ofList [(1, "ONE"), (2, "TWO"), (3, "THREE")] : Bimap ℕ String).size = 3 ∧
     (ofList [(1, "ONE"), (2, "TWO"), (3, "THREE")] : Bimap ℕ String).getValue 1 = some "ONE" ∧
     (ofList [(1, "ONE"), (2, "TWO"), (3, "THREE")] : Bimap ℕ String).getValue 2 = some "TWO" ∧
     (ofList [(1, "ONE"), (2, "TWO"), (3, "THREE")] : Bimap ℕ String).getValue 3 = some "THREE" ∧
     (ofList [(1, "ONE"), (2, "TWO"), (3, "THREE")] : Bimap ℕ String).getKey "ONE" = some 1 ∧
     (ofList [(1, "ONE"), (2, "TWO"), (3, "THREE")] : Bimap ℕ String).getKey "TWO" = some 2 ∧
     (ofList [(1, "ONE"), (2, "TWO"), (3, "THREE")] : Bimap ℕ String).getKey "THREE" = some 3) ∧
    (ofList [(1, 10), (1, 20)] : Bimap ℕ ℕ).getValue 1 = some 20 := by
  refine ⟨?_, ?_, by decide⟩
  · intro K V instK instV args
    exact ctorLoop_eq_foldl _ args
  · refine ⟨rfl, rfl, rfl, rfl, ?_, ?_, ?_⟩
    · show mapFind? (mapAssign (mapAssign (mapAssign ([] : List (String × ℕ))
        "ONE" 1) "TWO" 2) "THREE" 3) "ONE" = some 1
      rw [mapFind?_mapAssign_ne 3 (show ("ONE" : String) ≠ "THREE" by decide),
          mapFind?_mapAssign_ne 2 (show ("ONE" : String) ≠ "TWO" by decide)]
      exact mapFind?_mapAssign_self _ "ONE" 1
    · show mapFind? (mapAssign (mapAssign (mapAssign ([] : List (String × ℕ))
        "ONE" 1) "TWO" 2) "THREE" 3) "TWO" = some 2
      rw [mapFind?_mapAssign_ne 3 (show ("TWO" : String) ≠ "THREE" by decide)]
      exact mapFind?_mapAssign_self _ "TWO" 2
    · show mapFind? (mapAssign (mapAssign (mapAssign ([] : List (String × ℕ))
        "ONE" 1) "TWO" 2) "THREE" 3) "THREE" = some 3
      exact mapFind?_mapAssign_self _ "THREE" 3

/-- C9: on every reachable state, the forward traversal (`begin()` to
`end()`) lists the pairs in strictly ascending key order, the reverse
traversal (`rbegin()` to `rend()`) lists the same pairs in strictly
descending key order, and on the empty container the forward traversal is
empty (`begin() == end()`). -/
theorem C9_traversal_ordering (b : Bimap K V) (h : Reachable b) :
    b.toListAsc.Pairwise (fun p q => p.1 < q.1) ∧
    b.toListDesc = b.toListAsc.reverse ∧
    b.toListDesc.Pairwise (fun p q => q.1 < p.1) ∧
    (b.isEmpty = true → b.toListAsc = []) := by
  have hwf := h.wf
  refine ⟨hwf.1, rfl, ?_, ?_⟩
  · exact List.pairwise_reverse.mpr hwf.1
  · intro he
    rw [isEmpty] at he
    cases hm : b.m_map with
    | nil => rw [toListAsc, hm]
    | cons p rest => rw [hm] at he; simp [List.isEmpty] at he

/-- Witness for C9 at a concrete reachable state. -/
theorem C9_traversal_ordering_witness :
    Reachable ((emptyBimap ℕ ℕ).insert 1 10) ∧
    (((emptyBimap ℕ ℕ).insert 1 10).toListAsc.Pairwise (fun p q => p.1 < q.1) ∧
     ((emptyBimap ℕ ℕ).insert 1 10).toListDesc =
       ((emptyBimap ℕ ℕ).insert 1 10).toListAsc.reverse ∧
     ((emptyBimap ℕ ℕ).insert 1 10).toListDesc.Pairwise (fun p q => q.1 < p.1) ∧
     (((emptyBimap ℕ ℕ).insert 1 10).isEmpty = true →
       ((emptyBimap ℕ ℕ).insert 1 10).toListAsc = [])) :=
  ⟨Reachable.insertStep _ 1 10 Reachable.emptyCtor,
   C9_traversal_ordering ((emptyBimap ℕ ℕ).insert 1 10)
     (Reachable.insertStep _ 1 10 Reachable.emptyCtor)⟩

end Claims

end BimapModel
